import Mathlib

/-!
# Verification of the scatter/assemble particle interpolator

Shallow embedding of the algorithmic core of the repository (the `damp`
exponential-damping update, the three random point samplers
`getRandomSpherePoint`, `getRandomConePoint`, `getConeSurfacePoint`, and the
position blending used by the foliage shader and the `Ornaments` component),
translated from `src/index.tsx` with real numbers standing for IEEE doubles
and the uniform draws `Math.random()` made explicit parameters in `[0, 1)`.
-/

namespace Xmas

/-- A 3D vector, the embedding of `THREE.Vector3` as used by the samplers. -/
structure Vec3 where
  x : ℝ
  y : ℝ
  z : ℝ

/-- Euclidean distance of a `Vec3` from the origin. -/
noncomputable def Vec3.norm (p : Vec3) : ℝ := Real.sqrt (p.x ^ 2 + p.y ^ 2 + p.z ^ 2)

/-- Distance of a `Vec3` from the vertical (y) axis. -/
noncomputable def Vec3.horizDist (p : Vec3) : ℝ := Real.sqrt (p.x ^ 2 + p.z ^ 2)

/-- `THREE.MathUtils.lerp(x, y, t) = (1 - t) * x + t * y`; the same formula is
`mix` in the GLSL shader and `Vector3.lerpVectors` componentwise. -/
noncomputable def lerp (x y t : ℝ) : ℝ := (1 - t) * x + t * y

/-- `const damp = (c, t, l, d) => THREE.MathUtils.lerp(c, t, 1 - Math.exp(-l * d))`
(src/index.tsx line 55). -/
noncomputable def damp (c t l d : ℝ) : ℝ := lerp c t (1 - Real.exp (-l * d))

/-- Repeated `damp` ticks toward a fixed target `t` with rate `l`, one tick per
entry of `ds` (the per-frame `delta` values fed by `useFrame`). -/
noncomputable def dampSeq (v t l : ℝ) (ds : List ℝ) : ℝ :=
  ds.foldl (fun c d => damp c t l d) v

/-- `Math.cbrt` on the nonnegative reals (all call sites feed `Math.random()`,
which lies in `[0, 1)`). -/
noncomputable def cbrt (x : ℝ) : ℝ := x ^ ((1 : ℝ) / 3)

/-- `getRandomSpherePoint` (src/index.tsx lines 57-63).  The three
`Math.random()` draws are the explicit parameters `rndTheta`, `rndV`,
`rndRad`, in the order the source draws them. -/
noncomputable def getRandomSpherePoint (r rndTheta rndV rndRad : ℝ) : Vec3 :=
  let theta := rndTheta * Real.pi * 2
  let phi := Real.arccos (2 * rndV - 1)
  let rad := cbrt rndRad * r
  ⟨rad * Real.sin phi * Real.cos theta, rad * Real.sin phi * Real.sin theta,
    rad * Real.cos phi⟩

/-- `getRandomConePoint` (src/index.tsx lines 65-72).  Draw order in the
source: `rndH` (height), `rndTheta` (angle), `rndDist` (disk radius). -/
noncomputable def getRandomConePoint (h r rndH rndTheta rndDist : ℝ) : Vec3 :=
  let hRaw := 1 - cbrt rndH
  let y := hRaw * h
  let rad := r * (1 - y / h)
  let theta := rndTheta * Real.pi * 2
  let dist := Real.sqrt rndDist * rad
  ⟨dist * Real.cos theta, y - h / 2, dist * Real.sin theta⟩

/-- `getConeSurfacePoint` (src/index.tsx lines 74-79).  Draw order in the
source: `rndY` (height), `rndTheta` (angle). -/
noncomputable def getConeSurfacePoint (h r rndY rndTheta : ℝ) : Vec3 :=
  let y := rndY * h
  let rad := r * (1 - y / h)
  let theta := rndTheta * Real.pi * 2
  ⟨rad * Real.cos theta, y - h / 2, rad * Real.sin theta⟩

/-- The local height variable `y = hRaw * h` of `getRandomConePoint`, before
the `- h / 2` recentering of the returned y component. -/
noncomputable def coneSampleHeight (h u : ℝ) : ℝ := (1 - cbrt u) * h

/-- Componentwise `lerp`: `THREE.Vector3.lerpVectors(scatter, tree, mix)` as
used by `Ornaments` (src/index.tsx line 367) and `mix(aScatterPos, aTreePos,
uMix)` in the foliage vertex shader. -/
noncomputable def lerpVec (a b : Vec3) (t : ℝ) : Vec3 :=
  ⟨lerp a.x b.x t, lerp a.y b.y t, lerp a.z b.z t⟩

/-- The vertex position computed by the foliage shader (src/index.tsx lines
106-112): `pos = mix(aScatterPos, aTreePos, uMix)` followed by the additive
wind perturbation.  The factor `amp` scales the perturbation terms; the shader
itself has `amp = 1`, and the claim about endpoints sets `amp = 0`.  The `x`
and `z` offsets read the `y` of the mixed position, before the `y` offset is
added, exactly as the GLSL statements execute. -/
noncomputable def foliagePos (scatter tree : Vec3) (uMix uTime aRandom amp : ℝ) :
    Vec3 :=
  let pos := lerpVec scatter tree uMix
  let flow := uTime * (0.1 + aRandom * 0.1)
  ⟨pos.x + amp * (Real.cos (flow + pos.y * 1.0) * 0.05 * uMix),
    pos.y + amp * (Real.sin (uTime * 0.6 + aRandom * 10.0) * 0.03),
    pos.z + amp * (Real.sin (flow + pos.y * 1.0) * 0.05 * uMix)⟩

/-- The index-aligned endpoint position sets of one animated particle group
(spec section 3; in `Foliage` these are the `sPos`, `tPos`, `rnd` buffers). -/
structure ParticleSet where
  scatterPositions : List Vec3
  assembledPositions : List Vec3
  auxiliary : List ℝ

/-- Modelled from the spec: the operation
`initialize(count, scatterSampler, assembledSampler)` of section 4.1 together
with the error contract of section 7 ("Invalid `count` (negative or
non-integer): fails at `initialize`").  `src/index.tsx` has no such function:
`Foliage` hard-codes `count = 4500` and fills the buffers in a loop, so the
validation behavior is taken from the spec's words.  `count` is a rational so
that "non-integer" is expressible; the samplers consume an explicit index of
the underlying random stream. -/
def initParticleSet (count : ℚ) (scatterSampler assembledSampler : ℕ → Vec3)
    (auxSampler : ℕ → ℝ) : Except String ParticleSet :=
  if count < 0 ∨ count.den ≠ 1 then
    Except.error "invalid count"
  else
    Except.ok
      { scatterPositions := (List.range count.num.toNat).map scatterSampler
        assembledPositions := (List.range count.num.toNat).map assembledSampler
        auxiliary := (List.range count.num.toNat).map auxSampler }

/-- Modelled from the spec: the lateral-area fraction of the band
`y ∈ [a, b]` of a cone of height `h`, used to state what "uniform over
lateral surface area" requires of the height marginal.  Parametrizing the
lateral surface by height `y` and angle, the area element is proportional to
the local circumference, i.e. to `1 - y / h`, so the band mass of a uniform-
over-area distribution is the ratio of `∫ (1 - y / h)` over `[a, b]` to the
same integral over `[0, h]` (which equals `h / 2`). -/
noncomputable def coneSurfaceBandAreaFrac (h a b : ℝ) : ℝ :=
  ((b - a) - (b ^ 2 - a ^ 2) / (2 * h)) / (h / 2)

/-- Modelled from the spec: "distribution is exactly uniform over the stated
measure (volume ...)" for the solid ball of radius `R`.  The fraction of the
ball's volume lying in the spherical sector with radial interval `[r₁, r₂)`,
z-direction-cosine interval `[c₁, c₂)` and azimuth interval `[t₁, t₂)`: the
spherical volume element is `rho ^ 2  d rho  d(cos phi)  d theta`, so the
sector's volume is `(r₂³ - r₁³) / 3 * (c₂ - c₁) * (t₂ - t₁)` and the whole
ball's is `4 pi R³ / 3`.  Sets of this form generate the Borel subsets of the
ball, so a distribution assigns every one of them its volume fraction exactly
when it is the uniform distribution over the ball's volume. -/
noncomputable def sphereSectorVolumeFrac (R r₁ r₂ c₁ c₂ t₁ t₂ : ℝ) : ℝ :=
  ((r₂ ^ 3 - r₁ ^ 3) / R ^ 3) * ((c₂ - c₁) / 2) * ((t₂ - t₁) / (Real.pi * 2))

/-- Modelled from the spec: "distribution is exactly uniform over the stated
measure (volume ...)" for the solid cone of height `h` and base radius `r`.
The fraction of the cone's volume in the sector with apex-distance interval
`[a₁, a₂)`, fractional-disk-radius interval `[q₁, q₂)` (distance from the
axis divided by the slice radius `r * a / h` at apex distance `a`) and
azimuth interval `[t₁, t₂)`: the volume element in these coordinates is
`(r * a / h) ^ 2  q  dq  d theta  da`, so the sector's volume is
`(r / h) ^ 2 * (a₂³ - a₁³) / 3 * (q₂² - q₁²) / 2 * (t₂ - t₁)` against the
total `pi r² h / 3`; the base radius cancels.  These sectors generate the
Borel subsets of the cone, so matching these fractions characterizes the
uniform distribution over the cone's volume. -/
noncomputable def coneSectorVolumeFrac (h a₁ a₂ q₁ q₂ t₁ t₂ : ℝ) : ℝ :=
  ((a₂ ^ 3 - a₁ ^ 3) / h ^ 3) * (q₂ ^ 2 - q₁ ^ 2) * ((t₂ - t₁) / (Real.pi * 2))

/-! ## Helper lemmas about `damp` -/

/-- Closed form of one damping tick. -/
lemma damp_eq (c t l d : ℝ) : damp c t l d = t + (c - t) * Real.exp (-(l * d)) := by
  rw [damp, lerp, neg_mul]
  ring

lemma damp_sub_target (c t l d : ℝ) :
    damp c t l d - t = (c - t) * Real.exp (-(l * d)) := by
  rw [damp_eq]; ring

lemma exp_factor_pos (l d : ℝ) : 0 < Real.exp (-(l * d)) := Real.exp_pos _

lemma exp_factor_le_one (l d : ℝ) (hl : 0 < l) (hd : 0 ≤ d) :
    Real.exp (-(l * d)) ≤ 1 := by
  rw [Real.exp_le_one_iff]
  nlinarith

/-- One tick never leaves the interval between the current value and the
target. -/
lemma damp_between (c t l d : ℝ) (hl : 0 < l) (hd : 0 ≤ d) :
    damp c t l d ∈ Set.Icc (min c t) (max c t) := by
  have he0 := exp_factor_pos l d
  have he1 := exp_factor_le_one l d hl hd
  rw [damp_eq]
  rcases le_total c t with h | h
  · rw [Set.mem_Icc, min_eq_left h, max_eq_right h]
    constructor <;> nlinarith
  · rw [Set.mem_Icc, min_eq_right h, max_eq_left h]
    constructor <;> nlinarith

/-- One tick does not increase the distance to the target. -/
lemma damp_abs_le (c t l d : ℝ) (hl : 0 < l) (hd : 0 ≤ d) :
    |damp c t l d - t| ≤ |c - t| := by
  rw [damp_sub_target, abs_mul, abs_of_pos (exp_factor_pos l d)]
  exact mul_le_of_le_one_right (abs_nonneg _) (exp_factor_le_one l d hl hd)

/-- A whole tick sequence never leaves the interval between the initial value
and the target. -/
lemma dampSeq_between (t l : ℝ) (hl : 0 < l) :
    ∀ (ds : List ℝ) (v : ℝ), (∀ d ∈ ds, 0 ≤ d) →
      dampSeq v t l ds ∈ Set.Icc (min v t) (max v t) := by
  intro ds
  induction ds with
  | nil =>
    intro v _
    exact Set.mem_Icc.mpr ⟨min_le_left _ _, le_max_left _ _⟩
  | cons d ds ih =>
    intro v hds
    have hstep := damp_between v t l d hl (hds d (List.mem_cons_self d ds))
    rw [Set.mem_Icc] at hstep
    have hrec := ih (damp v t l d) (fun e he => hds e (List.mem_cons_of_mem d he))
    rw [Set.mem_Icc] at hrec
    have hmin : min v t ≤ min (damp v t l d) t :=
      le_min hstep.1 (min_le_right v t)
    have hmax : max (damp v t l d) t ≤ max v t :=
      max_le hstep.2 (le_max_right v t)
    rw [dampSeq, List.foldl_cons]
    exact Set.mem_Icc.mpr ⟨le_trans hmin hrec.1, le_trans hrec.2 hmax⟩

/-- Closed form of a whole tick sequence. -/
lemma dampSeq_closed (t l : ℝ) :
    ∀ (ds : List ℝ) (v : ℝ),
      dampSeq v t l ds = t + (v - t) * Real.exp (-(l * ds.sum)) := by
  intro ds
  induction ds with
  | nil =>
    intro v
    simp [dampSeq]
  | cons d ds ih =>
    intro v
    rw [dampSeq, List.foldl_cons, ← dampSeq, ih, damp_sub_target, List.sum_cons,
      show -(l * (d + ds.sum)) = -(l * d) + -(l * ds.sum) by ring, Real.exp_add]
    ring

/-! ## C1, C2, C3 -/

/-- C1: a single tick updates the blend value to exactly
`t + (v - t) * exp(-lambda * d)`: the source's
`damp(c, t, l, d) = lerp(c, t, 1 - exp(-l * d))` equals that expression over
the exact reals (here proved for all rates and deltas, in particular for
`l > 0` and `d ≥ 0`). -/
theorem damp_closed_form (c t l d : ℝ) :
    damp c t l d = lerp c t (1 - Real.exp (-l * d)) ∧
    damp c t l d = t + (c - t) * Real.exp (-(l * d)) :=
  ⟨rfl, damp_eq c t l d⟩

/-- C2: timestep invariance of the damping update.  Ticking once per entry of
any finite list of steps gives exactly (over the reals) the same final blend
value as one single tick of the total elapsed time; in particular this holds
for every decomposition of a total time `T` into nonnegative steps. -/
theorem dampSeq_timestep_invariance (v t l : ℝ) (ds : List ℝ) :
    dampSeq v t l ds = damp v t l ds.sum := by
  rw [dampSeq_closed, damp_eq]

/-- C3: for an initial value in `[0, 1]`, a fixed target in `{0, 1}`, a rate
`l > 0` and nonnegative tick steps, after every tick the blend value is still
in `[0, 1]`, it never overshoots past the target (it stays between the
initial value and the target), and its distance to the target is
non-increasing from each tick to the next. -/
theorem damp_bounded_monotone (v t l : ℝ) (ds : List ℝ) (n : ℕ)
    (hv : v ∈ Set.Icc (0 : ℝ) 1) (ht : t = 0 ∨ t = 1) (hl : 0 < l)
    (hds : ∀ d ∈ ds, 0 ≤ d) :
    dampSeq v t l (ds.take n) ∈ Set.Icc (0 : ℝ) 1 ∧
    dampSeq v t l (ds.take n) ∈ Set.Icc (min v t) (max v t) ∧
    |dampSeq v t l (ds.take (n + 1)) - t| ≤ |dampSeq v t l (ds.take n) - t| := by
  have hds' : ∀ m : ℕ, ∀ d ∈ ds.take m, 0 ≤ d :=
    fun m d hd => hds d (List.take_subset m ds hd)
  have ht01 : t ∈ Set.Icc (0 : ℝ) 1 := by
    rcases ht with rfl | rfl <;> constructor <;> norm_num
  have hbet := dampSeq_between t l hl (ds.take n) v (hds' n)
  rw [Set.mem_Icc] at hbet hv ht01
  refine ⟨?_, Set.mem_Icc.mpr hbet, ?_⟩
  · constructor
    · exact le_trans (le_min hv.1 ht01.1) hbet.1
    · exact le_trans hbet.2 (max_le hv.2 ht01.2)
  · rcases lt_or_ge n ds.length with hn | hn
    · have hsplit : ds.take (n + 1) = ds.take n ++ [ds[n]] := by
        rw [List.take_succ, List.getElem?_eq_getElem hn]
        rfl
      have hfold : dampSeq v t l (ds.take (n + 1)) =
          damp (dampSeq v t l (ds.take n)) t l ds[n] := by
        rw [hsplit, dampSeq, List.foldl_append]
        rfl
      rw [hfold]
      exact damp_abs_le _ t l _ hl (hds ds[n] (List.getElem_mem hn))
    · rw [List.take_of_length_le hn, List.take_of_length_le (le_trans hn (Nat.le_succ n))]

/-- Witness for C3 at `v = 0`, `t = 1`, `l = 1`, `ds = [1, 2]`, `n = 1`. -/
theorem damp_bounded_monotone_witness :
    dampSeq 0 1 1 (([1, 2] : List ℝ).take 1) ∈ Set.Icc (0 : ℝ) 1 ∧
    dampSeq 0 1 1 (([1, 2] : List ℝ).take 1) ∈ Set.Icc (min 0 1) (max 0 1) ∧
    |dampSeq 0 1 1 (([1, 2] : List ℝ).take 2) - 1| ≤
      |dampSeq 0 1 1 (([1, 2] : List ℝ).take 1) - 1| :=
  damp_bounded_monotone 0 1 1 [1, 2] 1
    (by constructor <;> norm_num) (Or.inr rfl) (by norm_num)
    (by intro d hd; rcases List.mem_cons.mp hd with rfl | hd'
        · norm_num
        · rcases List.mem_cons.mp hd' with rfl | h
          · norm_num
          · simp at h)

/-! ## Helper lemmas about `cbrt`, `sqrt` and interval volumes -/

lemma cbrt_nonneg (x : ℝ) (hx : 0 ≤ x) : 0 ≤ cbrt x := Real.rpow_nonneg hx _

lemma cbrt_cube (x : ℝ) (hx : 0 ≤ x) : cbrt x ^ 3 = x := by
  rw [cbrt, ← Real.rpow_natCast (x ^ ((1 : ℝ) / 3)) 3, ← Real.rpow_mul hx]
  norm_num

lemma cbrt_zero : cbrt 0 = 0 := by
  rw [cbrt, Real.zero_rpow (by norm_num : ((1 : ℝ) / 3) ≠ 0)]

lemma cbrt_le_one (x : ℝ) (hx0 : 0 ≤ x) (hx1 : x ≤ 1) : cbrt x ≤ 1 :=
  Real.rpow_le_one hx0 hx1 (by norm_num)

lemma cbrt_lt_one (x : ℝ) (hx0 : 0 ≤ x) (hx1 : x < 1) : cbrt x < 1 :=
  Real.rpow_lt_one hx0 hx1 (by norm_num)

lemma cbrt_le_iff (x c : ℝ) (hx : 0 ≤ x) (hc : 0 ≤ c) :
    cbrt x ≤ c ↔ x ≤ c ^ 3 := by
  constructor
  · intro hle
    calc x = cbrt x ^ 3 := (cbrt_cube x hx).symm
      _ ≤ c ^ 3 := pow_le_pow_left₀ (cbrt_nonneg x hx) hle 3
  · intro hle
    by_contra hcon
    push_neg at hcon
    have h3 : c ^ 3 < cbrt x ^ 3 := pow_lt_pow_left₀ hcon hc (by norm_num)
    rw [cbrt_cube x hx] at h3
    linarith

lemma le_cbrt_iff (x c : ℝ) (hx : 0 ≤ x) (hc : 0 ≤ c) :
    c ≤ cbrt x ↔ c ^ 3 ≤ x := by
  constructor
  · intro hle
    calc c ^ 3 ≤ cbrt x ^ 3 := pow_le_pow_left₀ hc hle 3
      _ = x := cbrt_cube x hx
  · intro hle
    by_contra hcon
    push_neg at hcon
    have h3 : cbrt x ^ 3 < c ^ 3 := pow_lt_pow_left₀ hcon (cbrt_nonneg x hx) (by norm_num)
    rw [cbrt_cube x hx] at h3
    linarith

lemma cbrt_lt_iff (x c : ℝ) (hx : 0 ≤ x) (hc : 0 ≤ c) :
    cbrt x < c ↔ x < c ^ 3 := by
  rw [← not_le, ← not_le, le_cbrt_iff x c hx hc]

lemma sqrt_le_iff_sq (x c : ℝ) (hx : 0 ≤ x) (hc : 0 ≤ c) :
    Real.sqrt x ≤ c ↔ x ≤ c ^ 2 := by
  constructor
  · intro hle
    calc x = Real.sqrt x ^ 2 := (Real.sq_sqrt hx).symm
      _ ≤ c ^ 2 := pow_le_pow_left₀ (Real.sqrt_nonneg x) hle 2
  · intro hle
    by_contra hcon
    push_neg at hcon
    have h2 : c ^ 2 < Real.sqrt x ^ 2 := pow_lt_pow_left₀ hcon hc (by norm_num)
    rw [Real.sq_sqrt hx] at h2
    linarith

lemma le_sqrt_iff_sq (x c : ℝ) (hx : 0 ≤ x) (hc : 0 ≤ c) :
    c ≤ Real.sqrt x ↔ c ^ 2 ≤ x := by
  constructor
  · intro hle
    calc c ^ 2 ≤ Real.sqrt x ^ 2 := pow_le_pow_left₀ hc hle 2
      _ = x := Real.sq_sqrt hx
  · intro hle
    by_contra hcon
    push_neg at hcon
    have h2 : Real.sqrt x ^ 2 < c ^ 2 :=
      pow_lt_pow_left₀ hcon (Real.sqrt_nonneg x) (by norm_num)
    rw [Real.sq_sqrt hx] at h2
    linarith

lemma sqrt_lt_iff_sq (x c : ℝ) (hx : 0 ≤ x) (hc : 0 ≤ c) :
    Real.sqrt x < c ↔ x < c ^ 2 := by
  rw [← not_le, ← not_le, le_sqrt_iff_sq x c hx hc]

/-- Volume of a triple product of draw intervals, via the product structure
of the Lebesgue measure on `ℝ × ℝ × ℝ`. -/
lemma vol_Ico_prod (a₁ b₁ a₂ b₂ a₃ b₃ : ℝ) :
    MeasureTheory.volume
        ((Set.Ico a₁ b₁) ×ˢ (Set.Ico a₂ b₂) ×ˢ (Set.Ico a₃ b₃)) =
      ENNReal.ofReal (b₁ - a₁) *
        (ENNReal.ofReal (b₂ - a₂) * ENNReal.ofReal (b₃ - a₃)) := by
  rw [MeasureTheory.Measure.volume_eq_prod, MeasureTheory.Measure.prod_prod,
    MeasureTheory.Measure.volume_eq_prod, MeasureTheory.Measure.prod_prod,
    Real.volume_Ico, Real.volume_Ico, Real.volume_Ico]

/-- Volume of the part of the unit draw interval below a threshold. -/
lemma vol_sep_le (c : ℝ) (h0 : 0 ≤ c) (h1 : c ≤ 1) :
    MeasureTheory.volume {u ∈ Set.Ico (0 : ℝ) 1 | u ≤ c} = ENNReal.ofReal c := by
  rcases lt_or_eq_of_le h1 with hc | rfl
  · have hset : {u ∈ Set.Ico (0 : ℝ) 1 | u ≤ c} = Set.Icc 0 c := by
      ext u
      simp only [Set.mem_setOf_eq, Set.mem_Ico, Set.mem_Icc]
      constructor
      · rintro ⟨⟨hu0, _⟩, huc⟩
        exact ⟨hu0, huc⟩
      · rintro ⟨hu0, huc⟩
        exact ⟨⟨hu0, lt_of_le_of_lt huc hc⟩, huc⟩
    rw [hset, Real.volume_Icc, sub_zero]
  · have hset : {u ∈ Set.Ico (0 : ℝ) 1 | u ≤ 1} = Set.Ico 0 1 := by
      ext u
      simp only [Set.mem_setOf_eq, Set.mem_Ico]
      constructor
      · rintro ⟨hu, _⟩
        exact hu
      · intro hu
        exact ⟨hu, le_of_lt hu.2⟩
    rw [hset, Real.volume_Ico, sub_zero]

/-- Volume of the part of the unit draw interval at or above a threshold. -/
lemma vol_sep_ge (c : ℝ) (h0 : 0 ≤ c) :
    MeasureTheory.volume {u ∈ Set.Ico (0 : ℝ) 1 | c ≤ u} =
      ENNReal.ofReal (1 - c) := by
  have hset : {u ∈ Set.Ico (0 : ℝ) 1 | c ≤ u} = Set.Ico c 1 := by
    ext u
    simp only [Set.mem_setOf_eq, Set.mem_Ico]
    constructor
    · rintro ⟨⟨_, hu1⟩, hcu⟩
      exact ⟨hcu, hu1⟩
    · rintro ⟨hcu, hu1⟩
      exact ⟨⟨le_trans h0 hcu, hu1⟩, hcu⟩
  rw [hset, Real.volume_Ico]

/-- Volume of the draws scaled by `c` landing in the subinterval `[a, b)` of
`[0, c)`. -/
lemma vol_scaled (c a b : ℝ) (hc : 0 < c) (ha : 0 ≤ a) (_hab : a ≤ b)
    (hb : b ≤ c) :
    MeasureTheory.volume {u ∈ Set.Ico (0 : ℝ) 1 | a ≤ u * c ∧ u * c < b} =
      ENNReal.ofReal ((b - a) / c) := by
  have hset : {u ∈ Set.Ico (0 : ℝ) 1 | a ≤ u * c ∧ u * c < b} =
      Set.Ico (a / c) (b / c) := by
    ext u
    simp only [Set.mem_setOf_eq, Set.mem_Ico]
    constructor
    · rintro ⟨⟨_, _⟩, h2, h3⟩
      exact ⟨(div_le_iff₀ hc).mpr h2, (lt_div_iff₀ hc).mpr h3⟩
    · rintro ⟨h2, h3⟩
      have hu0 : 0 ≤ u := le_trans (div_nonneg ha hc.le) h2
      have hu1 : u < 1 := lt_of_lt_of_le h3 ((div_le_one hc).mpr hb)
      exact ⟨⟨hu0, hu1⟩, (div_le_iff₀ hc).mp h2, (lt_div_iff₀ hc).mp h3⟩
  rw [hset, Real.volume_Ico, ← sub_div]

/-- The norm of a sphere sample is the cube-root-scaled radius, for any
direction draws: shared by the C5 and C7 theorems. -/
lemma sphere_norm (r rndTheta rndV rndRad : ℝ) (hr : 0 ≤ r) (hu : 0 ≤ rndRad) :
    Vec3.norm (getRandomSpherePoint r rndTheta rndV rndRad) = cbrt rndRad * r := by
  have hrad : 0 ≤ cbrt rndRad * r := mul_nonneg (cbrt_nonneg rndRad hu) hr
  rw [getRandomSpherePoint, Vec3.norm]
  have hsq : (cbrt rndRad * r * Real.sin (Real.arccos (2 * rndV - 1)) *
        Real.cos (rndTheta * Real.pi * 2)) ^ 2 +
      (cbrt rndRad * r * Real.sin (Real.arccos (2 * rndV - 1)) *
        Real.sin (rndTheta * Real.pi * 2)) ^ 2 +
      (cbrt rndRad * r * Real.cos (Real.arccos (2 * rndV - 1))) ^ 2 =
      (cbrt rndRad * r) ^ 2 := by
    linear_combination
      ((cbrt rndRad * r) ^ 2 * Real.sin (Real.arccos (2 * rndV - 1)) ^ 2) *
        Real.sin_sq_add_cos_sq (rndTheta * Real.pi * 2) +
      (cbrt rndRad * r) ^ 2 * Real.sin_sq_add_cos_sq (Real.arccos (2 * rndV - 1))
  rw [hsq, Real.sqrt_sq hrad]

/-! ## C5 -/

/-- C5: for `r > 0` and a radial draw in `[0, 1)`, the sphere sample's
distance from the origin is exactly `r * cbrt u` — hence the point lies in
the closed ball of radius `r` — and its components are the spherical-
coordinate direction given by `phi = arccos(2 v - 1)` and
`theta = 2 pi u2`. -/
theorem spherePoint_spec (r rndTheta rndV rndRad : ℝ) (hr : 0 < r)
    (hu : rndRad ∈ Set.Ico (0 : ℝ) 1) :
    Vec3.norm (getRandomSpherePoint r rndTheta rndV rndRad) = r * cbrt rndRad ∧
    Vec3.norm (getRandomSpherePoint r rndTheta rndV rndRad) ≤ r ∧
    (getRandomSpherePoint r rndTheta rndV rndRad).x =
      cbrt rndRad * r * Real.sin (Real.arccos (2 * rndV - 1)) *
        Real.cos (rndTheta * Real.pi * 2) ∧
    (getRandomSpherePoint r rndTheta rndV rndRad).y =
      cbrt rndRad * r * Real.sin (Real.arccos (2 * rndV - 1)) *
        Real.sin (rndTheta * Real.pi * 2) ∧
    (getRandomSpherePoint r rndTheta rndV rndRad).z =
      cbrt rndRad * r * Real.cos (Real.arccos (2 * rndV - 1)) := by
  obtain ⟨hu0, hu1⟩ := hu
  have hn := sphere_norm r rndTheta rndV rndRad hr.le hu0
  refine ⟨by rw [hn]; ring, ?_, rfl, rfl, rfl⟩
  rw [hn]
  calc cbrt rndRad * r ≤ 1 * r := by
        have := cbrt_le_one rndRad hu0 (le_of_lt hu1)
        nlinarith
    _ = r := one_mul r

/-- Witness for C5 at `r = 2` and draws `(0, 0, 1/8)`. -/
theorem spherePoint_spec_witness :
    Vec3.norm (getRandomSpherePoint 2 0 0 (1 / 8)) = 2 * cbrt (1 / 8) ∧
    Vec3.norm (getRandomSpherePoint 2 0 0 (1 / 8)) ≤ 2 ∧
    (getRandomSpherePoint 2 0 0 (1 / 8)).x =
      cbrt (1 / 8) * 2 * Real.sin (Real.arccos (2 * 0 - 1)) *
        Real.cos (0 * Real.pi * 2) ∧
    (getRandomSpherePoint 2 0 0 (1 / 8)).y =
      cbrt (1 / 8) * 2 * Real.sin (Real.arccos (2 * 0 - 1)) *
        Real.sin (0 * Real.pi * 2) ∧
    (getRandomSpherePoint 2 0 0 (1 / 8)).z =
      cbrt (1 / 8) * 2 * Real.cos (Real.arccos (2 * 0 - 1)) :=
  spherePoint_spec 2 0 0 (1 / 8) (by norm_num)
    (by constructor <;> norm_num)

/-! ## C4 -/

/-- C4 counterexample: at `height = 1`, the set of draws whose cone-sample
height `y(u) = height * (1 - cbrt u)` exceeds `height / 2` has measure `1/8`,
not a measure greater than `1/2`: the formula puts `y = 0` at the wide base,
so the samples concentrate at small `y`, not at large `y`. -/
theorem coneHeight_half_measure_counterexample :
    MeasureTheory.volume {u ∈ Set.Ico (0 : ℝ) 1 | 1 / 2 < coneSampleHeight 1 u} =
      ENNReal.ofReal (1 / 8) ∧
    ¬ (ENNReal.ofReal (1 / 2) < ENNReal.ofReal (1 / 8)) := by
  constructor
  · have hset : {u ∈ Set.Ico (0 : ℝ) 1 | 1 / 2 < coneSampleHeight 1 u} =
        Set.Ico (0 : ℝ) (1 / 8) := by
      ext u
      simp only [Set.mem_setOf_eq, Set.mem_Ico, coneSampleHeight, mul_one]
      constructor
      · rintro ⟨⟨hu0, _⟩, hgt⟩
        have h1 : cbrt u < 1 / 2 := by linarith
        have h2 := (cbrt_lt_iff u (1 / 2) hu0 (by norm_num)).mp h1
        norm_num at h2
        exact ⟨hu0, h2⟩
      · rintro ⟨hu0, hu8⟩
        have h2 : cbrt u < 1 / 2 :=
          (cbrt_lt_iff u (1 / 2) hu0 (by norm_num)).mpr (by norm_num; linarith)
        exact ⟨⟨hu0, by linarith⟩, by linarith⟩
    rw [hset, Real.volume_Ico, sub_zero]
  · exact not_lt.mpr (ENNReal.ofReal_le_ofReal (by norm_num))

/-- C4 amended: the cone sampler's returned y component is the local height
`y(u) = (1 - cbrt u) * height` recentered by `- height / 2`; that local height
is measured from the BASE (the distance from the apex is `cbrt u * height`),
and the samples concentrate in the near-base half `y ≤ height / 2`, whose set
of draws has measure `7/8 > 1/2`. -/
theorem coneHeight_base_bias (h r rndH rndTheta rndDist : ℝ) (hh : 0 < h) :
    (getRandomConePoint h r rndH rndTheta rndDist).y =
      coneSampleHeight h rndH - h / 2 ∧
    h - coneSampleHeight h rndH = cbrt rndH * h ∧
    MeasureTheory.volume {u ∈ Set.Ico (0 : ℝ) 1 | coneSampleHeight h u ≤ h / 2} =
      ENNReal.ofReal (7 / 8) ∧
    ENNReal.ofReal (1 / 2) < ENNReal.ofReal (7 / 8) := by
  refine ⟨rfl, by rw [coneSampleHeight]; ring, ?_, ?_⟩
  · have hset : {u ∈ Set.Ico (0 : ℝ) 1 | coneSampleHeight h u ≤ h / 2} =
        {u ∈ Set.Ico (0 : ℝ) 1 | 1 / 8 ≤ u} := by
      ext u
      simp only [Set.mem_setOf_eq, Set.mem_Ico, coneSampleHeight]
      constructor
      · rintro ⟨⟨hu0, hu1⟩, hle⟩
        refine ⟨⟨hu0, hu1⟩, ?_⟩
        have h1 : (1 : ℝ) / 2 ≤ cbrt u := by nlinarith
        have h2 := (le_cbrt_iff u (1 / 2) hu0 (by norm_num)).mp h1
        norm_num at h2
        exact h2
      · rintro ⟨⟨hu0, hu1⟩, hge⟩
        refine ⟨⟨hu0, hu1⟩, ?_⟩
        have h1 : (1 : ℝ) / 2 ≤ cbrt u :=
          (le_cbrt_iff u (1 / 2) hu0 (by norm_num)).mpr (by norm_num; linarith)
        nlinarith
    rw [hset, vol_sep_ge (1 / 8) (by norm_num)]
    norm_num
  · rw [ENNReal.ofReal_lt_ofReal_iff (by norm_num)]
    norm_num

/-- Witness for C4's amended theorem at `h = 1` and zero draws. -/
theorem coneHeight_base_bias_witness :
    (getRandomConePoint 1 0 0 0 0).y = coneSampleHeight 1 0 - 1 / 2 ∧
    1 - coneSampleHeight 1 0 = cbrt 0 * 1 ∧
    MeasureTheory.volume {u ∈ Set.Ico (0 : ℝ) 1 | coneSampleHeight 1 u ≤ 1 / 2} =
      ENNReal.ofReal (7 / 8) ∧
    ENNReal.ofReal (1 / 2) < ENNReal.ofReal (7 / 8) :=
  coneHeight_base_bias 1 0 0 0 0 (by norm_num)

/-! ## C6 -/

/-- C6: every cone-surface sample lies exactly on the lateral taper: its
horizontal distance from the axis is exactly `r * (1 - y / h)` at its local
height `y = u * h`, which ranges in `[0, h)`; the height draws are uniform on
`[0, h)` and the angle draws are uniform on `[0, 2 * pi)` (stated as the
exact Lebesgue measure of the draws landing in any subinterval). -/
theorem coneSurfacePoint_spec (h r uy tθ a b a2 b2 : ℝ) (hh : 0 < h)
    (hr : 0 < r) (huy : uy ∈ Set.Ico (0 : ℝ) 1) (ha : 0 ≤ a) (hab : a ≤ b)
    (hbh : b ≤ h) (ha2 : 0 ≤ a2) (hab2 : a2 ≤ b2) (hb2 : b2 ≤ Real.pi * 2) :
    Vec3.horizDist (getConeSurfacePoint h r uy tθ) = r * (1 - uy * h / h) ∧
    (getConeSurfacePoint h r uy tθ).y = uy * h - h / 2 ∧
    0 ≤ uy * h ∧ uy * h < h ∧
    MeasureTheory.volume {u ∈ Set.Ico (0 : ℝ) 1 | a ≤ u * h ∧ u * h < b} =
      ENNReal.ofReal ((b - a) / h) ∧
    MeasureTheory.volume
        {u ∈ Set.Ico (0 : ℝ) 1 | a2 ≤ u * Real.pi * 2 ∧ u * Real.pi * 2 < b2} =
      ENNReal.ofReal ((b2 - a2) / (Real.pi * 2)) := by
  obtain ⟨hu0, hu1⟩ := huy
  refine ⟨?_, rfl, mul_nonneg hu0 hh.le, by nlinarith, ?_, ?_⟩
  · have hyh : uy * h / h = uy := by field_simp
    have hrad0 : 0 ≤ r * (1 - uy * h / h) := by
      rw [hyh]
      nlinarith
    simp only [getConeSurfacePoint, Vec3.horizDist]
    have hsq : (r * (1 - uy * h / h) * Real.cos (tθ * Real.pi * 2)) ^ 2 +
        (r * (1 - uy * h / h) * Real.sin (tθ * Real.pi * 2)) ^ 2 =
        (r * (1 - uy * h / h)) ^ 2 := by
      linear_combination (r * (1 - uy * h / h)) ^ 2 *
        Real.sin_sq_add_cos_sq (tθ * Real.pi * 2)
    rw [hsq, Real.sqrt_sq hrad0]
  · exact vol_scaled h a b hh ha hab hbh
  · have hpi : ∀ u : ℝ, u * Real.pi * 2 = u * (Real.pi * 2) := fun u => by ring
    simp only [hpi]
    exact vol_scaled (Real.pi * 2) a2 b2 (by positivity) ha2 hab2 hb2

/-- Witness for C6 at `h = r = 1`, `uy = tθ = 0`, bands `[0, 1)` and
`[0, 2 pi)`. -/
theorem coneSurfacePoint_spec_witness :
    Vec3.horizDist (getConeSurfacePoint 1 1 0 0) = 1 * (1 - 0 * 1 / 1) ∧
    (getConeSurfacePoint 1 1 0 0).y = 0 * 1 - 1 / 2 ∧
    0 ≤ (0 : ℝ) * 1 ∧ (0 : ℝ) * 1 < 1 ∧
    MeasureTheory.volume {u ∈ Set.Ico (0 : ℝ) 1 | 0 ≤ u * 1 ∧ u * 1 < 1} =
      ENNReal.ofReal ((1 - 0) / 1) ∧
    MeasureTheory.volume
        {u ∈ Set.Ico (0 : ℝ) 1 |
          0 ≤ u * Real.pi * 2 ∧ u * Real.pi * 2 < Real.pi * 2} =
      ENNReal.ofReal ((Real.pi * 2 - 0) / (Real.pi * 2)) :=
  coneSurfacePoint_spec 1 1 0 0 0 1 0 (Real.pi * 2) (by norm_num) (by norm_num)
    (by constructor <;> norm_num) (by norm_num) (by norm_num) (by norm_num)
    (by norm_num) (by positivity) (le_refl _)

/-! ## C7 -/

/-- Cube-root radial law, shared by the sphere and solid-cone clauses of the
C7 theorem. -/
lemma vol_cbrt_le (c s : ℝ) (hc : 0 < c) (hs : 0 ≤ s) (hsc : s ≤ c) :
    MeasureTheory.volume {u ∈ Set.Ico (0 : ℝ) 1 | cbrt u * c ≤ s} =
      ENNReal.ofReal ((s / c) ^ 3) := by
  have hd0 : 0 ≤ s / c := div_nonneg hs hc.le
  have hset : {u ∈ Set.Ico (0 : ℝ) 1 | cbrt u * c ≤ s} =
      {u ∈ Set.Ico (0 : ℝ) 1 | u ≤ (s / c) ^ 3} := by
    ext u
    simp only [Set.mem_setOf_eq, Set.mem_Ico]
    constructor
    · rintro ⟨⟨hu0, hu1⟩, hle⟩
      exact ⟨⟨hu0, hu1⟩,
        (cbrt_le_iff u (s / c) hu0 hd0).mp ((le_div_iff₀ hc).mpr hle)⟩
    · rintro ⟨⟨hu0, hu1⟩, hle⟩
      exact ⟨⟨hu0, hu1⟩,
        (le_div_iff₀ hc).mp ((cbrt_le_iff u (s / c) hu0 hd0).mpr hle)⟩
  rw [hset]
  exact vol_sep_le _ (pow_nonneg hd0 3)
    (pow_le_one₀ hd0 ((div_le_one hc).mpr hsc))

/-- C7 counterexample: the cone-surface sampler is NOT uniform over lateral
surface area.  At `h = r = 1`, the draws landing in the near-base half
`y ≤ h / 2` (returned y component `≤ 0`) have measure exactly `1/2`, while a
distribution uniform over the lateral area would give that band the area
fraction `3/4`. -/
theorem coneSurface_area_uniformity_counterexample :
    MeasureTheory.volume
        {u ∈ Set.Ico (0 : ℝ) 1 | (getConeSurfacePoint 1 1 u 0).y ≤ 0} =
      ENNReal.ofReal (1 / 2) ∧
    coneSurfaceBandAreaFrac 1 0 (1 / 2) = 3 / 4 ∧
    ENNReal.ofReal (1 / 2) ≠ ENNReal.ofReal (3 / 4) := by
  refine ⟨?_, ?_, ?_⟩
  · have hset : {u ∈ Set.Ico (0 : ℝ) 1 | (getConeSurfacePoint 1 1 u 0).y ≤ 0} =
        {u ∈ Set.Ico (0 : ℝ) 1 | u ≤ 1 / 2} := by
      ext u
      simp only [getConeSurfacePoint, Set.mem_setOf_eq, Set.mem_Ico]
      constructor
      · rintro ⟨hm, hy⟩
        exact ⟨hm, by linarith⟩
      · rintro ⟨hm, hy⟩
        exact ⟨hm, by linarith⟩
    rw [hset]
    exact vol_sep_le (1 / 2) (by norm_num) (by norm_num)
  · rw [coneSurfaceBandAreaFrac]
    norm_num
  · rw [Ne, ENNReal.ofReal_eq_ofReal_iff (by norm_num) (by norm_num)]
    norm_num

/-- C7 amended: for the two solid samplers the distribution of the returned
point is exactly uniform over the stated volume, stated on the generating
sectors of the region: the probability that a draw triple lands in any
spherical sector of the ball (radial shell, z-direction-cosine band, azimuth
band), resp. any conical sector of the cone (apex-distance band, fractional-
disk-radius band, azimuth band), equals that sector's exact volume fraction;
moreover the returned point is exactly the geometric embedding of the
sampled spherical coordinates (its norm, z-cosine `2 v - 1` and azimuth),
resp. carries the stated horizontal distance.  The cone-SURFACE sampler,
however, is uniform over its `(y, theta)` parameters and NOT uniform over
lateral surface area: the near-base half receives probability `1/2` while
uniformity over area would require the band fraction `3/4`. -/
theorem samplers_uniformity_laws
    (R h r r₁ r₂ c₁ c₂ a₁ a₂ q₁ q₂ t₁ t₂ tθ v u uh ud : ℝ)
    (hR : 0 < R) (hh : 0 < h) (hr : 0 < r)
    (hr₁ : 0 ≤ r₁) (hr12 : r₁ ≤ r₂) (hr₂ : r₂ ≤ R)
    (hc₁ : -1 ≤ c₁) (hc12 : c₁ ≤ c₂) (hc₂ : c₂ ≤ 1)
    (ha₁ : 0 ≤ a₁) (ha12 : a₁ ≤ a₂) (ha₂ : a₂ ≤ h)
    (hq₁ : 0 ≤ q₁) (hq12 : q₁ ≤ q₂) (hq₂ : q₂ ≤ 1)
    (ht₁ : 0 ≤ t₁) (ht12 : t₁ ≤ t₂) (ht₂ : t₂ ≤ Real.pi * 2)
    (hv : v ∈ Set.Ico (0 : ℝ) 1) (hu : u ∈ Set.Ico (0 : ℝ) 1)
    (huh : uh ∈ Set.Ico (0 : ℝ) 1) :
    MeasureTheory.volume
        {p ∈ (Set.Ico (0 : ℝ) 1) ×ˢ (Set.Ico (0 : ℝ) 1) ×ˢ (Set.Ico (0 : ℝ) 1) |
          (r₁ ≤ Vec3.norm (getRandomSpherePoint R p.1 p.2.1 p.2.2) ∧
            Vec3.norm (getRandomSpherePoint R p.1 p.2.1 p.2.2) < r₂) ∧
          (c₁ ≤ 2 * p.2.1 - 1 ∧ 2 * p.2.1 - 1 < c₂) ∧
          (t₁ ≤ p.1 * Real.pi * 2 ∧ p.1 * Real.pi * 2 < t₂)} =
      ENNReal.ofReal (sphereSectorVolumeFrac R r₁ r₂ c₁ c₂ t₁ t₂) ∧
    MeasureTheory.volume
        {p ∈ (Set.Ico (0 : ℝ) 1) ×ˢ (Set.Ico (0 : ℝ) 1) ×ˢ (Set.Ico (0 : ℝ) 1) |
          (a₁ ≤ h / 2 - (getRandomConePoint h r p.1 p.2.1 p.2.2).y ∧
            h / 2 - (getRandomConePoint h r p.1 p.2.1 p.2.2).y < a₂) ∧
          (q₁ ≤ Real.sqrt p.2.2 ∧ Real.sqrt p.2.2 < q₂) ∧
          (t₁ ≤ p.2.1 * Real.pi * 2 ∧ p.2.1 * Real.pi * 2 < t₂)} =
      ENNReal.ofReal (coneSectorVolumeFrac h a₁ a₂ q₁ q₂ t₁ t₂) ∧
    (getRandomSpherePoint R tθ v u).x =
      Vec3.norm (getRandomSpherePoint R tθ v u) *
        Real.sqrt (1 - (2 * v - 1) ^ 2) * Real.cos (tθ * Real.pi * 2) ∧
    (getRandomSpherePoint R tθ v u).y =
      Vec3.norm (getRandomSpherePoint R tθ v u) *
        Real.sqrt (1 - (2 * v - 1) ^ 2) * Real.sin (tθ * Real.pi * 2) ∧
    (getRandomSpherePoint R tθ v u).z =
      Vec3.norm (getRandomSpherePoint R tθ v u) * (2 * v - 1) ∧
    Vec3.horizDist (getRandomConePoint h r uh tθ ud) =
      Real.sqrt ud * (r * cbrt uh) ∧
    MeasureTheory.volume
        {w ∈ Set.Ico (0 : ℝ) 1 | (getConeSurfacePoint h r w 0).y ≤ 0} =
      ENNReal.ofReal (1 / 2) ∧
    coneSurfaceBandAreaFrac h 0 (h / 2) = 3 / 4 := by
  have hpi2 : (0 : ℝ) < Real.pi * 2 := by positivity
  have hpine : Real.pi ≠ 0 := Real.pi_ne_zero
  have hRne : R ≠ 0 := hR.ne'
  have hhne : h ≠ 0 := hh.ne'
  have hr₂0 : 0 ≤ r₂ := le_trans hr₁ hr12
  have ha₂0 : 0 ≤ a₂ := le_trans ha₁ ha12
  have hq₂0 : 0 ≤ q₂ := le_trans hq₁ hq12
  have hA : 0 ≤ t₂ / (Real.pi * 2) - t₁ / (Real.pi * 2) := by
    rw [← sub_div]
    exact div_nonneg (by linarith) hpi2.le
  refine ⟨?_, ?_, ?_, ?_, ?_, ?_, ?_, ?_⟩
  · have hsetS :
        {p ∈ (Set.Ico (0 : ℝ) 1) ×ˢ (Set.Ico (0 : ℝ) 1) ×ˢ (Set.Ico (0 : ℝ) 1) |
          (r₁ ≤ Vec3.norm (getRandomSpherePoint R p.1 p.2.1 p.2.2) ∧
            Vec3.norm (getRandomSpherePoint R p.1 p.2.1 p.2.2) < r₂) ∧
          (c₁ ≤ 2 * p.2.1 - 1 ∧ 2 * p.2.1 - 1 < c₂) ∧
          (t₁ ≤ p.1 * Real.pi * 2 ∧ p.1 * Real.pi * 2 < t₂)} =
        (Set.Ico (t₁ / (Real.pi * 2)) (t₂ / (Real.pi * 2))) ×ˢ
          (Set.Ico ((c₁ + 1) / 2) ((c₂ + 1) / 2)) ×ˢ
          (Set.Ico ((r₁ / R) ^ 3) ((r₂ / R) ^ 3)) := by
      apply Set.ext
      rintro ⟨tv, vv, uv⟩
      simp only [Set.mem_sep_iff, Set.mem_setOf_eq, Set.mem_prod, Set.mem_Ico]
      constructor
      · rintro ⟨⟨⟨htv0, htv1⟩, ⟨hvv0, hvv1⟩, huv0, huv1⟩,
          ⟨hn1, hn2⟩, ⟨hcc1, hcc2⟩, hth1, hth2⟩
        rw [sphere_norm R tv vv uv hR.le huv0] at hn1 hn2
        refine ⟨⟨?_, ?_⟩, ⟨by linarith, by linarith⟩, ?_, ?_⟩
        · exact (div_le_iff₀ hpi2).mpr (by rw [← mul_assoc]; exact hth1)
        · exact (lt_div_iff₀ hpi2).mpr (by rw [← mul_assoc]; exact hth2)
        · exact (le_cbrt_iff uv (r₁ / R) huv0 (div_nonneg hr₁ hR.le)).mp
            ((div_le_iff₀ hR).mpr hn1)
        · exact (cbrt_lt_iff uv (r₂ / R) huv0 (div_nonneg hr₂0 hR.le)).mp
            ((lt_div_iff₀ hR).mpr hn2)
      · rintro ⟨⟨hd1, hd2⟩, ⟨he1, he2⟩, hf1, hf2⟩
        have huv0 : 0 ≤ uv := le_trans (pow_nonneg (div_nonneg hr₁ hR.le) 3) hf1
        have huv1 : uv < 1 := lt_of_lt_of_le hf2
          (pow_le_one₀ (div_nonneg hr₂0 hR.le) ((div_le_one hR).mpr hr₂))
        refine ⟨⟨⟨?_, ?_⟩, ⟨by linarith, by linarith⟩, huv0, huv1⟩,
          ⟨?_, ?_⟩, ⟨by linarith, by linarith⟩, ?_, ?_⟩
        · exact le_trans (div_nonneg ht₁ hpi2.le) hd1
        · exact lt_of_lt_of_le hd2 ((div_le_one hpi2).mpr ht₂)
        · rw [sphere_norm R tv vv uv hR.le huv0]
          exact (div_le_iff₀ hR).mp
            ((le_cbrt_iff uv (r₁ / R) huv0 (div_nonneg hr₁ hR.le)).mpr hf1)
        · rw [sphere_norm R tv vv uv hR.le huv0]
          exact (lt_div_iff₀ hR).mp
            ((cbrt_lt_iff uv (r₂ / R) huv0 (div_nonneg hr₂0 hR.le)).mpr hf2)
        · rw [mul_assoc]
          exact (div_le_iff₀ hpi2).mp hd1
        · rw [mul_assoc]
          exact (lt_div_iff₀ hpi2).mp hd2
    rw [hsetS, vol_Ico_prod,
      ← ENNReal.ofReal_mul (by linarith : (0 : ℝ) ≤ (c₂ + 1) / 2 - (c₁ + 1) / 2),
      ← ENNReal.ofReal_mul hA]
    congr 1
    rw [sphereSectorVolumeFrac]
    field_simp
    ring
  · have hapex : ∀ uu tv wv : ℝ,
        h / 2 - (getRandomConePoint h r uu tv wv).y = cbrt uu * h := by
      intro uu tv wv
      simp only [getRandomConePoint]
      ring
    simp only [hapex]
    have hsetC :
        {p ∈ (Set.Ico (0 : ℝ) 1) ×ˢ (Set.Ico (0 : ℝ) 1) ×ˢ (Set.Ico (0 : ℝ) 1) |
          (a₁ ≤ cbrt p.1 * h ∧ cbrt p.1 * h < a₂) ∧
          (q₁ ≤ Real.sqrt p.2.2 ∧ Real.sqrt p.2.2 < q₂) ∧
          (t₁ ≤ p.2.1 * Real.pi * 2 ∧ p.2.1 * Real.pi * 2 < t₂)} =
        (Set.Ico ((a₁ / h) ^ 3) ((a₂ / h) ^ 3)) ×ˢ
          (Set.Ico (t₁ / (Real.pi * 2)) (t₂ / (Real.pi * 2))) ×ˢ
          (Set.Ico (q₁ ^ 2) (q₂ ^ 2)) := by
      apply Set.ext
      rintro ⟨uv, tv, wv⟩
      simp only [Set.mem_sep_iff, Set.mem_setOf_eq, Set.mem_prod, Set.mem_Ico]
      constructor
      · rintro ⟨⟨⟨hu0, hu1⟩, ⟨ht0, ht1⟩, hw0, hw1⟩,
          ⟨hb1, hb2⟩, ⟨hq1c, hq2c⟩, hth1, hth2⟩
        refine ⟨⟨?_, ?_⟩, ⟨?_, ?_⟩, ?_, ?_⟩
        · exact (le_cbrt_iff uv (a₁ / h) hu0 (div_nonneg ha₁ hh.le)).mp
            ((div_le_iff₀ hh).mpr hb1)
        · exact (cbrt_lt_iff uv (a₂ / h) hu0 (div_nonneg ha₂0 hh.le)).mp
            ((lt_div_iff₀ hh).mpr hb2)
        · exact (div_le_iff₀ hpi2).mpr (by rw [← mul_assoc]; exact hth1)
        · exact (lt_div_iff₀ hpi2).mpr (by rw [← mul_assoc]; exact hth2)
        · exact (le_sqrt_iff_sq wv q₁ hw0 hq₁).mp hq1c
        · exact (sqrt_lt_iff_sq wv q₂ hw0 hq₂0).mp hq2c
      · rintro ⟨⟨hd1, hd2⟩, ⟨he1, he2⟩, hf1, hf2⟩
        have hu0 : 0 ≤ uv := le_trans (pow_nonneg (div_nonneg ha₁ hh.le) 3) hd1
        have hu1 : uv < 1 := lt_of_lt_of_le hd2
          (pow_le_one₀ (div_nonneg ha₂0 hh.le) ((div_le_one hh).mpr ha₂))
        have hw0 : 0 ≤ wv := le_trans (pow_nonneg hq₁ 2) hf1
        have hw1 : wv < 1 := lt_of_lt_of_le hf2 (pow_le_one₀ hq₂0 hq₂)
        refine ⟨⟨⟨hu0, hu1⟩, ⟨?_, ?_⟩, hw0, hw1⟩,
          ⟨?_, ?_⟩, ⟨?_, ?_⟩, ?_, ?_⟩
        · exact le_trans (div_nonneg ht₁ hpi2.le) he1
        · exact lt_of_lt_of_le he2 ((div_le_one hpi2).mpr ht₂)
        · exact (div_le_iff₀ hh).mp
            ((le_cbrt_iff uv (a₁ / h) hu0 (div_nonneg ha₁ hh.le)).mpr hd1)
        · exact (lt_div_iff₀ hh).mp
            ((cbrt_lt_iff uv (a₂ / h) hu0 (div_nonneg ha₂0 hh.le)).mpr hd2)
        · exact (le_sqrt_iff_sq wv q₁ hw0 hq₁).mpr hf1
        · exact (sqrt_lt_iff_sq wv q₂ hw0 hq₂0).mpr hf2
        · rw [mul_assoc]
          exact (div_le_iff₀ hpi2).mp he1
        · rw [mul_assoc]
          exact (lt_div_iff₀ hpi2).mp he2
    have hC : 0 ≤ (a₂ / h) ^ 3 - (a₁ / h) ^ 3 := by
      have hdiv : a₁ / h ≤ a₂ / h := by gcongr
      have := pow_le_pow_left₀ (div_nonneg ha₁ hh.le) hdiv 3
      linarith
    rw [hsetC, vol_Ico_prod, ← ENNReal.ofReal_mul hA, ← ENNReal.ofReal_mul hC]
    congr 1
    rw [coneSectorVolumeFrac]
    field_simp
    ring
  · have hn := sphere_norm R tθ v u hR.le hu.1
    have hx : (getRandomSpherePoint R tθ v u).x =
        cbrt u * R * Real.sin (Real.arccos (2 * v - 1)) *
          Real.cos (tθ * Real.pi * 2) := rfl
    rw [hx, hn, Real.sin_arccos]
  · have hn := sphere_norm R tθ v u hR.le hu.1
    have hy : (getRandomSpherePoint R tθ v u).y =
        cbrt u * R * Real.sin (Real.arccos (2 * v - 1)) *
          Real.sin (tθ * Real.pi * 2) := rfl
    rw [hy, hn, Real.sin_arccos]
  · have hn := sphere_norm R tθ v u hR.le hu.1
    have hz : (getRandomSpherePoint R tθ v u).z =
        cbrt u * R * Real.cos (Real.arccos (2 * v - 1)) := rfl
    rw [hz, hn, Real.cos_arccos (by linarith [hv.1]) (by linarith [hv.2])]
  · obtain ⟨hu0, _⟩ := huh
    have hrad : r * (1 - (1 - cbrt uh) * h / h) = r * cbrt uh := by
      field_simp
    have hd0 : 0 ≤ Real.sqrt ud * (r * cbrt uh) :=
      mul_nonneg (Real.sqrt_nonneg ud) (mul_nonneg hr.le (cbrt_nonneg uh hu0))
    simp only [getRandomConePoint, Vec3.horizDist]
    rw [hrad]
    have hsq : (Real.sqrt ud * (r * cbrt uh) * Real.cos (tθ * Real.pi * 2)) ^ 2 +
        (Real.sqrt ud * (r * cbrt uh) * Real.sin (tθ * Real.pi * 2)) ^ 2 =
        (Real.sqrt ud * (r * cbrt uh)) ^ 2 := by
      linear_combination (Real.sqrt ud * (r * cbrt uh)) ^ 2 *
        Real.sin_sq_add_cos_sq (tθ * Real.pi * 2)
    rw [hsq, Real.sqrt_sq hd0]
  · have hset : {w ∈ Set.Ico (0 : ℝ) 1 | (getConeSurfacePoint h r w 0).y ≤ 0} =
        {w ∈ Set.Ico (0 : ℝ) 1 | w ≤ 1 / 2} := by
      ext w
      simp only [getConeSurfacePoint, Set.mem_setOf_eq, Set.mem_Ico]
      constructor
      · rintro ⟨hm, hyw⟩
        have h1 : w * h ≤ (1 / 2) * h := by linarith
        exact ⟨hm, (mul_le_mul_right hh).mp h1⟩
      · rintro ⟨hm, hw⟩
        have h1 : w * h ≤ (1 / 2) * h := (mul_le_mul_right hh).mpr hw
        exact ⟨hm, by linarith⟩
    rw [hset]
    exact vol_sep_le (1 / 2) (by norm_num) (by norm_num)
  · rw [coneSurfaceBandAreaFrac]
    field_simp
    ring

/-- Witness for C7's amended theorem at unit parameters, the full sectors
`[0, 1) x [-1, 1) x [0, 2 pi)` resp. `[0, 1) x [0, 1) x [0, 2 pi)`, and zero
draws. -/
theorem samplers_uniformity_laws_witness :
    MeasureTheory.volume
        {p ∈ (Set.Ico (0 : ℝ) 1) ×ˢ (Set.Ico (0 : ℝ) 1) ×ˢ (Set.Ico (0 : ℝ) 1) |
          (0 ≤ Vec3.norm (getRandomSpherePoint 1 p.1 p.2.1 p.2.2) ∧
            Vec3.norm (getRandomSpherePoint 1 p.1 p.2.1 p.2.2) < 1) ∧
          (-1 ≤ 2 * p.2.1 - 1 ∧ 2 * p.2.1 - 1 < 1) ∧
          (0 ≤ p.1 * Real.pi * 2 ∧ p.1 * Real.pi * 2 < Real.pi * 2)} =
      ENNReal.ofReal (sphereSectorVolumeFrac 1 0 1 (-1) 1 0 (Real.pi * 2)) ∧
    MeasureTheory.volume
        {p ∈ (Set.Ico (0 : ℝ) 1) ×ˢ (Set.Ico (0 : ℝ) 1) ×ˢ (Set.Ico (0 : ℝ) 1) |
          (0 ≤ 1 / 2 - (getRandomConePoint 1 1 p.1 p.2.1 p.2.2).y ∧
            1 / 2 - (getRandomConePoint 1 1 p.1 p.2.1 p.2.2).y < 1) ∧
          (0 ≤ Real.sqrt p.2.2 ∧ Real.sqrt p.2.2 < 1) ∧
          (0 ≤ p.2.1 * Real.pi * 2 ∧ p.2.1 * Real.pi * 2 < Real.pi * 2)} =
      ENNReal.ofReal (coneSectorVolumeFrac 1 0 1 0 1 0 (Real.pi * 2)) ∧
    (getRandomSpherePoint 1 0 0 0).x =
      Vec3.norm (getRandomSpherePoint 1 0 0 0) *
        Real.sqrt (1 - (2 * 0 - 1) ^ 2) * Real.cos (0 * Real.pi * 2) ∧
    (getRandomSpherePoint 1 0 0 0).y =
      Vec3.norm (getRandomSpherePoint 1 0 0 0) *
        Real.sqrt (1 - (2 * 0 - 1) ^ 2) * Real.sin (0 * Real.pi * 2) ∧
    (getRandomSpherePoint 1 0 0 0).z =
      Vec3.norm (getRandomSpherePoint 1 0 0 0) * (2 * 0 - 1) ∧
    Vec3.horizDist (getRandomConePoint 1 1 0 0 0) =
      Real.sqrt 0 * (1 * cbrt 0) ∧
    MeasureTheory.volume
        {w ∈ Set.Ico (0 : ℝ) 1 | (getConeSurfacePoint 1 1 w 0).y ≤ 0} =
      ENNReal.ofReal (1 / 2) ∧
    coneSurfaceBandAreaFrac 1 0 (1 / 2) = 3 / 4 :=
  samplers_uniformity_laws 1 1 1 0 1 (-1) 1 0 1 0 1 0 (Real.pi * 2) 0 0 0 0 0
    (by norm_num) (by norm_num) (by norm_num) (by norm_num) (by norm_num)
    (by norm_num) (by norm_num) (by norm_num) (by norm_num) (by norm_num)
    (by norm_num) (by norm_num) (by norm_num) (by norm_num) (by norm_num)
    (by norm_num) (by positivity) (le_refl _)
    (by constructor <;> norm_num) (by constructor <;> norm_num)
    (by constructor <;> norm_num)

/-! ## C8 -/

/-- C8: with the cosmetic perturbation amplitude set to zero, the blended
position is exactly the scatter endpoint at blend value `0` and exactly the
assembled endpoint at blend value `1` — both for the foliage shader position
and for the `Ornaments` componentwise `lerpVectors`. -/
theorem positionOf_endpoints (scatter tree : Vec3) (uTime aRandom : ℝ) :
    foliagePos scatter tree 0 uTime aRandom 0 = scatter ∧
    foliagePos scatter tree 1 uTime aRandom 0 = tree ∧
    lerpVec scatter tree 0 = scatter ∧
    lerpVec scatter tree 1 = tree := by
  obtain ⟨sx, sy, sz⟩ := scatter
  obtain ⟨tx, ty, tz⟩ := tree
  refine ⟨?_, ?_, ?_, ?_⟩ <;>
    simp only [foliagePos, lerpVec, lerp, Vec3.mk.injEq] <;>
    refine ⟨by ring, by ring, by ring⟩

/-! ## C9 -/

/-- C9: initializing a particle set fails with an error (producing no
`ParticleSet`) whenever the count is negative or not an integer, and for
every positive integer count it succeeds with fully populated, index-aligned
position lists of exactly that length. -/
theorem initParticleSet_spec (s a : ℕ → Vec3) (x : ℕ → ℝ) :
    (∀ q : ℚ, q < 0 ∨ q.den ≠ 1 →
      initParticleSet q s a x = Except.error "invalid count") ∧
    (∀ k : ℕ, 0 < k → ∃ ps : ParticleSet,
      initParticleSet (k : ℚ) s a x = Except.ok ps ∧
      ps.scatterPositions.length = k ∧ ps.assembledPositions.length = k ∧
      ps.auxiliary.length = k) := by
  constructor
  · intro q hq
    rw [initParticleSet, if_pos hq]
  · intro k _
    have hcond : ¬(((k : ℚ) < 0) ∨ ((k : ℚ)).den ≠ 1) := by
      push_neg
      exact ⟨by exact_mod_cast Nat.zero_le k, Rat.den_natCast k⟩
    refine ⟨⟨(List.range ((k : ℚ)).num.toNat).map s,
        (List.range ((k : ℚ)).num.toNat).map a,
        (List.range ((k : ℚ)).num.toNat).map x⟩, ?_, ?_, ?_, ?_⟩
    · rw [initParticleSet, if_neg hcond]
    · simp [Rat.num_natCast]
    · simp [Rat.num_natCast]
    · simp [Rat.num_natCast]

/-- A constant point sampler, used only by the C9 witness. -/
noncomputable def sampler0 : ℕ → Vec3 := fun _ => ⟨0, 0, 0⟩

/-- A constant auxiliary sampler, used only by the C9 witness. -/
noncomputable def auxSampler0 : ℕ → ℝ := fun _ => 0

/-- Witness for C9 at counts `-1` (rejected) and `3` (accepted). -/
theorem initParticleSet_spec_witness :
    initParticleSet (-1) sampler0 sampler0 auxSampler0 =
      Except.error "invalid count" ∧
    ∃ ps : ParticleSet,
      initParticleSet ((3 : ℕ) : ℚ) sampler0 sampler0 auxSampler0 =
        Except.ok ps ∧
      ps.scatterPositions.length = 3 ∧ ps.assembledPositions.length = 3 ∧
      ps.auxiliary.length = 3 :=
  ⟨(initParticleSet_spec sampler0 sampler0 auxSampler0).1 (-1)
      (Or.inl (by norm_num)),
    (initParticleSet_spec sampler0 sampler0 auxSampler0).2 3 (by norm_num)⟩

/-! ## C10 -/

/-- C10: both cone samplers return vertically recentered points: the y
component always lies in `[-h/2, h/2]`, it equals the spec's `[0, h)`-ranged
height shifted down by `h / 2`, the apex (radius `0`) sits at `y = +h/2`
(attained by the solid sampler at height draw `0`), and the widest
cross-section (horizontal distance `r`) sits at `y = -h/2` (attained by the
surface sampler at height draw `0`). -/
theorem conePoints_vertical_range (h r rndH rndTheta rndDist rndY rndTheta2 : ℝ)
    (hh : 0 < h) (hr : 0 < r) (hH : rndH ∈ Set.Ico (0 : ℝ) 1)
    (hY : rndY ∈ Set.Ico (0 : ℝ) 1) :
    (getRandomConePoint h r rndH rndTheta rndDist).y ∈
      Set.Icc (-(h / 2)) (h / 2) ∧
    (getConeSurfacePoint h r rndY rndTheta2).y ∈ Set.Icc (-(h / 2)) (h / 2) ∧
    (getRandomConePoint h r rndH rndTheta rndDist).y =
      coneSampleHeight h rndH - h / 2 ∧
    (getConeSurfacePoint h r rndY rndTheta2).y = rndY * h - h / 2 ∧
    getRandomConePoint h r 0 rndTheta rndDist = ⟨0, h / 2, 0⟩ ∧
    (getConeSurfacePoint h r 0 rndTheta2).y = -(h / 2) ∧
    Vec3.horizDist (getConeSurfacePoint h r 0 rndTheta2) = r := by
  obtain ⟨hH0, hH1⟩ := hH
  obtain ⟨hY0, hY1⟩ := hY
  have hc0 : 0 ≤ cbrt rndH := cbrt_nonneg rndH hH0
  have hc1 : cbrt rndH < 1 := cbrt_lt_one rndH hH0 hH1
  refine ⟨?_, ?_, rfl, rfl, ?_, ?_, ?_⟩
  · simp only [getRandomConePoint, Set.mem_Icc]
    constructor <;> nlinarith
  · simp only [getConeSurfacePoint, Set.mem_Icc]
    constructor <;> nlinarith
  · have hne : h ≠ 0 := hh.ne'
    simp only [getRandomConePoint, cbrt_zero, Vec3.mk.injEq]
    refine ⟨?_, by ring, ?_⟩ <;> field_simp
  · simp only [getConeSurfacePoint]
    ring
  · have hdiv : (0 : ℝ) * h / h = 0 := by
      rw [zero_mul, zero_div]
    simp only [getConeSurfacePoint, Vec3.horizDist, hdiv]
    have hsq : (r * (1 - 0) * Real.cos (rndTheta2 * Real.pi * 2)) ^ 2 +
        (r * (1 - 0) * Real.sin (rndTheta2 * Real.pi * 2)) ^ 2 = r ^ 2 := by
      linear_combination r ^ 2 * Real.sin_sq_add_cos_sq (rndTheta2 * Real.pi * 2)
    rw [hsq, Real.sqrt_sq hr.le]

/-- Witness for C10 at `h = 2`, `r = 1` and zero draws. -/
theorem conePoints_vertical_range_witness :
    (getRandomConePoint 2 1 0 0 0).y ∈ Set.Icc (-(2 / 2 : ℝ)) (2 / 2) ∧
    (getConeSurfacePoint 2 1 0 0).y ∈ Set.Icc (-(2 / 2 : ℝ)) (2 / 2) ∧
    (getRandomConePoint 2 1 0 0 0).y = coneSampleHeight 2 0 - 2 / 2 ∧
    (getConeSurfacePoint 2 1 0 0).y = 0 * 2 - 2 / 2 ∧
    getRandomConePoint 2 1 0 0 0 = ⟨0, 2 / 2, 0⟩ ∧
    (getConeSurfacePoint 2 1 0 0).y = -(2 / 2) ∧
    Vec3.horizDist (getConeSurfacePoint 2 1 0 0) = 1 :=
  conePoints_vertical_range 2 1 0 0 0 0 0 (by norm_num) (by norm_num)
    (by constructor <;> norm_num) (by constructor <;> norm_num)

end Xmas
